import Mathlib

/-!
# A model of `SmartCache` (src/SmartCache.ts, the LRU/TTL variant)

Shallow embedding of the `SmartCache<K, T>` class: the variant with three
key-partitioned mappings (`#stringCache`, `#symbolCache`, `#cache`), a
doubly-linked LRU ledger with a key-to-node index, per-entry TTL state, and
a `#currentSize` counter.  JavaScript values are modelled by the inductive
`JSVal`; object and symbol identities are natural numbers.  Wall-clock time
(`Date.now()`) is passed to each operation explicitly.  The shared
`FinalizationRegistry` and `setTimeout` machinery are modelled by their
observable effects on the cache: a pending TTL timer is recorded inside the
entry (`Timeout`), and the timer callback / finalization callback are the
explicit steps `fireTtlTimer` / `handleFinalization` (both are
`this.delete(key)` in the source).  The liveness of a `WeakRef` target is
modelled by the `deadRefs` component: `deref()` returns the target unless it
has been collected (`gcCollect`).

The intrusive sentinel-bounded doubly-linked list plus `#lruMap` index is
modelled by the list `lru` of keys, ordered oldest first (the node adjacent
to the head sentinel is the list head; the tail-sentinel end is the end of
the list).  `#currentSize` is an `Int`, exactly mirroring the JavaScript
number arithmetic of the counter.
-/

namespace SmartCache

/-- A JavaScript value as far as the cache can distinguish them:
`typeof` kind plus identity for objects/symbols/arrays. -/
inductive JSVal where
  | nullv : JSVal
  | undef : JSVal
  | boolean : Bool → JSVal
  | num : Int → JSVal
  | str : String → JSVal
  | sym : Nat → JSVal
  | obj : Nat → JSVal
  | arr : Nat → JSVal
deriving DecidableEq

/-- The three key categories of `#getEntry`: `typeof key === 'string'`,
`typeof key === 'symbol'`, and everything else (stored in `#cache`). -/
inductive KeyType where
  | string : KeyType
  | symbol : KeyType
  | object : KeyType
deriving DecidableEq

/-- Key dispatch used by `#getEntry`, `set` and `delete`. -/
def typeofKey : JSVal → KeyType
  | .str _ => .string
  | .sym _ => .symbol
  | _ => .object

/-- A pending `setTimeout` handle: when it was armed and with which delay.
Its callback is `this.delete(key)` (`#createTtlTimeout`). -/
structure Timeout where
  armedAt : Nat
  delay : Nat
deriving DecidableEq

/-- `StringCacheEntry<T>`. -/
structure StrEntry where
  value : JSVal
  timeoutId : Option Timeout
  expiresAt : Option Nat
  accessTime : Nat
deriving DecidableEq

/-- `SymbolCacheEntry<T>`. -/
structure SymEntry where
  value : JSVal
  timeoutId : Option Timeout
  expiresAt : Option Nat
  accessTime : Nat
  unregisterToken : Nat
deriving DecidableEq

/-- `CacheEntry<T extends object>`: the entry for object-category keys.
`weakRef` records the target of `new WeakRef(value)`. -/
structure ObjEntry where
  weakRef : JSVal
  timeoutId : Option Timeout
  expiresAt : Option Nat
  accessTime : Nat
  unregisterToken : Nat
deriving DecidableEq

/-- The union type `Entry<T>` of the source. -/
inductive Entry where
  | str : StrEntry → Entry
  | sym : SymEntry → Entry
  | obj : ObjEntry → Entry
deriving DecidableEq

def Entry.expiresAt : Entry → Option Nat
  | .str e => e.expiresAt
  | .sym e => e.expiresAt
  | .obj e => e.expiresAt

def Entry.timeoutId : Entry → Option Timeout
  | .str e => e.timeoutId
  | .sym e => e.timeoutId
  | .obj e => e.timeoutId

/-- The value an entry hands back on a successful `get`: the stored value
for string/symbol entries, the `WeakRef` target for object entries. -/
def Entry.payload : Entry → JSVal
  | .str e => e.value
  | .sym e => e.value
  | .obj e => e.weakRef

/-- `SetOptions`. -/
structure SetOptions where
  ttl : Option Nat
deriving DecidableEq

/-- The complete mutable state of one `SmartCache` instance.  The three
caches are JavaScript `Map`s, modelled as insertion-ordered association
lists.  `lru` is the doubly-linked LRU ledger read from the head sentinel
(oldest first); membership in `lru` models membership in `#lruMap`.
`deadRefs` is the set of `WeakRef` targets the garbage collector has
reclaimed.  `nextToken` generates the fresh `Object(Symbol())` unregister
tokens. -/
structure St where
  stringCache : List (JSVal × StrEntry)
  symbolCache : List (JSVal × SymEntry)
  cache : List (JSVal × ObjEntry)
  lru : List JSVal
  currentSize : Int
  defaultTtl : Option Nat
  maxSize : Option Nat
  deadRefs : List JSVal
  nextToken : Nat
deriving DecidableEq

/-- The state built by the constructor (both sentinels linked, everything
empty).  The constructor options are `{ defaultTtl?, maxSize? }`. -/
def initState (defaultTtl maxSize : Option Nat) : St :=
  { stringCache := [], symbolCache := [], cache := [], lru := []
    currentSize := 0, defaultTtl := defaultTtl, maxSize := maxSize
    deadRefs := [], nextToken := 0 }

/-- The host capabilities the class probes with `typeof global.… !== 'function'`. -/
structure HostEnv where
  weakRefAvailable : Bool
  finalizationRegistryAvailable : Bool
deriving DecidableEq

/-- The constructor (and the `#sharedRegistry` field initializer that runs
with it): it throws iff `FinalizationRegistry` is missing.  There is no
check of `WeakRef` anywhere in the constructor. -/
def construct (env : HostEnv) (defaultTtl maxSize : Option Nat) : Except String St :=
  if env.finalizationRegistryAvailable then
    .ok (initState defaultTtl maxSize)
  else
    .error "FinalizationRegistry is not supported in this environment"

/-! ## Association-list primitives (JavaScript `Map` operations) -/

/-- `Map.get`. -/
def alookup {β : Type} : List (JSVal × β) → JSVal → Option β
  | [], _ => none
  | p :: t, k => if p.1 = k then some p.2 else alookup t k

/-- `Map.set`: update in place if the key is present (JavaScript `Map`
keeps the original position), append otherwise. -/
def aset {β : Type} : List (JSVal × β) → JSVal → β → List (JSVal × β)
  | [], k, v => [(k, v)]
  | p :: t, k, v => if p.1 = k then (k, v) :: t else p :: aset t k v

/-- `Map.delete`. -/
def aerase {β : Type} : List (JSVal × β) → JSVal → List (JSVal × β)
  | [], _ => []
  | p :: t, k => if p.1 = k then aerase t k else p :: aerase t k

/-- The keys of an association list. -/
def keysOf {β : Type} (l : List (JSVal × β)) : List JSVal :=
  l.map Prod.fst

/-! ## TTL helpers -/

/-- `#isExpired`: `expiresAt !== undefined && Date.now() > expiresAt`. -/
def isExpired (now : Nat) : Option Nat → Bool
  | none => false
  | some e => decide (e < now)

/-- JavaScript truthiness of an optional number (`undefined` and `0` are
falsy); used for `entry.expiresAt && …`, `ttl ? … : …` and
`this.#maxSize && …`. -/
def optTruthy : Option Nat → Bool
  | none => false
  | some n => decide (n ≠ 0)

/-- `options?.ttl ?? this.#defaultTtl` (`??` falls back only on
null/undefined, so an explicit `ttl: 0` is kept). -/
def effectiveTtl (opts : Option SetOptions) (defaultTtl : Option Nat) : Option Nat :=
  match opts with
  | some o => match o.ttl with
    | some t => some t
    | none => defaultTtl
  | none => defaultTtl

/-- `ttl ? Date.now() + ttl : undefined` in `set`. -/
def ttlExpiresAt (now : Nat) (ttl : Option Nat) : Option Nat :=
  if optTruthy ttl then some (now + ttl.getD 0) else none

/-- `ttl ? this.#createTtlTimeout(key, ttl) : undefined` in `set`. -/
def ttlTimeout (now : Nat) (ttl : Option Nat) : Option Timeout :=
  if optTruthy ttl then some ⟨now, ttl.getD 0⟩ else none

/-! ## The operations -/

/-- `#getEntry`. -/
def getEntry (st : St) (key : JSVal) : Option Entry × KeyType :=
  match typeofKey key with
  | .string => ((alookup st.stringCache key).map .str, .string)
  | .symbol => ((alookup st.symbolCache key).map .sym, .symbol)
  | .object => ((alookup st.cache key).map .obj, .object)

/-- Whether some mapping currently holds an entry for `key`. -/
def entryPresent (st : St) (key : JSVal) : Bool :=
  (getEntry st key).1.isSome

/-- `#updateLRU`: relink the key's node at the tail (most recently used)
if it is indexed, else append a fresh node at the tail.  The source
short-circuits when the node is already adjacent to the tail sentinel. -/
def updateLRU (st : St) (key : JSVal) : St :=
  if key ∈ st.lru then
    if st.lru.getLast? = some key then st
    else { st with lru := st.lru.erase key ++ [key] }
  else { st with lru := st.lru ++ [key] }

/-- `delete`: unlink and unindex the LRU node if present, then remove the
entry from the mapping selected by the key's `typeof`, clearing its timer
and (for symbol/object entries) unregistering its token.  Decrements
`#currentSize` only when an entry was removed. -/
def deleteOp (st : St) (key : JSVal) : Bool × St :=
  let st1 := if key ∈ st.lru then { st with lru := st.lru.erase key } else st
  match typeofKey key with
  | .string =>
    match alookup st1.stringCache key with
    | some _ => (true, { st1 with stringCache := aerase st1.stringCache key
                                  currentSize := st1.currentSize - 1 })
    | none => (false, st1)
  | .symbol =>
    match alookup st1.symbolCache key with
    | some _ => (true, { st1 with symbolCache := aerase st1.symbolCache key
                                  currentSize := st1.currentSize - 1 })
    | none => (false, st1)
  | .object =>
    match alookup st1.cache key with
    | some _ => (true, { st1 with cache := aerase st1.cache key
                                  currentSize := st1.currentSize - 1 })
    | none => (false, st1)

/-- `#evictLRU`: nothing to do when the head sentinel points at the tail
sentinel; otherwise delete the key held by the oldest node. -/
def evictLRU (st : St) : St :=
  match st.lru with
  | [] => st
  | oldest :: _ => (deleteOp st oldest).2

/-- `set` (lines 136-209).  Returns the thrown message, if any, together
with the state at that point; the state is threaded so that a throw after
a mutation keeps the mutation, exactly as in JavaScript.
`#validateInputs` rejects null/undefined key or value before anything is
touched.  An existing entry is torn down (`#cleanupExistingEntry` is
`this.delete(key)`) and the key relinked in the ledger; then the capacity
check may evict; then the new entry is installed in the mapping matching
the key's `typeof`.  For object-category keys an `Array` value matches no
branch (nothing is stored), and `new WeakRef(value)` on a primitive
non-symbol value throws a `TypeError`.

The teardown and capacity-check prefix of `set` (lines 138-148) is split
off as `setPrelude`: if an entry exists it is deleted
(`#cleanupExistingEntry`) and the key relinked in the ledger; then, when
`#maxSize` is truthy and `#currentSize` has reached it, the
least-recently-used entry is evicted. -/
def setPrelude (st : St) (key : JSVal) : St :=
  let st1 := if entryPresent st key then updateLRU (deleteOp st key).2 key else st
  if optTruthy st1.maxSize ∧ (st1.maxSize.getD 0 : Int) ≤ st1.currentSize then
    evictLRU st1
  else st1

/-- `set` (lines 136-209), continuing after `setPrelude`. -/
def setOp (st : St) (now : Nat) (key value : JSVal) (opts : Option SetOptions) :
    Option String × St :=
  if key = .nullv ∨ key = .undef then
    (some "Key cannot be null or undefined", st)
  else if value = .nullv ∨ value = .undef then
    (some "Value cannot be null or undefined", st)
  else
    let st2 := setPrelude st key
    let ttl := effectiveTtl opts st2.defaultTtl
    let expiresAt := ttlExpiresAt now ttl
    let timeoutId := ttlTimeout now ttl
    match typeofKey key with
    | .string =>
      (none, { st2 with
        stringCache := aset st2.stringCache key ⟨value, timeoutId, expiresAt, now⟩
        currentSize := st2.currentSize + 1 })
    | .symbol =>
      (none, { st2 with
        symbolCache := aset st2.symbolCache key ⟨value, timeoutId, expiresAt, now, st2.nextToken⟩
        nextToken := st2.nextToken + 1
        currentSize := st2.currentSize + 1 })
    | .object =>
      match value with
      | .arr _ => (none, st2)
      | .obj _ =>
        (none, { st2 with
          cache := aset st2.cache key ⟨value, timeoutId, expiresAt, now, st2.nextToken⟩
          nextToken := st2.nextToken + 1
          currentSize := st2.currentSize + 1 })
      | .sym _ =>
        (none, { st2 with
          cache := aset st2.cache key ⟨value, timeoutId, expiresAt, now, st2.nextToken⟩
          nextToken := st2.nextToken + 1
          currentSize := st2.currentSize + 1 })
      | _ => (some "TypeError: WeakRef target must be an object or a symbol", st2)

/-- `weakRef.deref()`: the target unless it has been collected. -/
def derefOf (st : St) (target : JSVal) : Option JSVal :=
  if target ∈ st.deadRefs then none else some target

/-- `get` (lines 91-119): look up; lazily purge on truthy-and-expired
`expiresAt`; bump recency; for object-category entries, purge when the
`WeakRef` is dead. -/
def getOp (st : St) (now : Nat) (key : JSVal) : Option JSVal × St :=
  match (getEntry st key).1 with
  | none => (none, st)
  | some e =>
    if optTruthy e.expiresAt ∧ isExpired now e.expiresAt then
      (none, (deleteOp st key).2)
    else
      let st1 := updateLRU st key
      match e with
      | .str se => (some se.value, st1)
      | .sym se => (some se.value, st1)
      | .obj oe =>
        match derefOf st1 oe.weakRef with
        | none => (none, (deleteOp st1 key).2)
        | some v => (some v, st1)

/-- `has` (lines 268-283): the liveness/expiry check without the value.
It is a pure read: no branch of the source mutates anything. -/
def hasOp (st : St) (now : Nat) (key : JSVal) : Bool :=
  match typeofKey key with
  | .string =>
    match alookup st.stringCache key with
    | some e => !isExpired now e.expiresAt
    | none => false
  | .symbol =>
    match alookup st.symbolCache key with
    | some e => !isExpired now e.expiresAt
    | none => false
  | .object =>
    match alookup st.cache key with
    | some e =>
      if isExpired now e.expiresAt then false
      else (derefOf st e.weakRef).isSome
    | none => false

/-- Whether an object-cache entry survives the `size`/`keys` sweep:
not expired, and its `WeakRef` still dereferences. -/
def objAlive (st : St) (now : Nat) (e : ObjEntry) : Bool :=
  !isExpired now e.expiresAt && (derefOf st e.weakRef).isSome

/-- The keys the `size`/`keys` sweep collects into `deadKeys`, in
encounter order: object cache, then symbol cache, then string cache. -/
def deadKeysOf (st : St) (now : Nat) : List JSVal :=
  keysOf (st.cache.filter (fun p => !objAlive st now p.2))
    ++ keysOf (st.symbolCache.filter (fun p => isExpired now p.2.expiresAt))
    ++ keysOf (st.stringCache.filter (fun p => isExpired now p.2.expiresAt))

/-- `deadKeys.forEach(key => this.delete(key))`. -/
def purge (st : St) (ks : List JSVal) : St :=
  ks.foldl (fun s k => (deleteOp s k).2) st

/-- `size` (lines 289-327): count the surviving entries of all three
mappings, delete the dead ones, report the count. -/
def sizeOp (st : St) (now : Nat) : Nat × St :=
  let alive :=
    (st.cache.filter (fun p => objAlive st now p.2)).length
      + (st.symbolCache.filter (fun p => !isExpired now p.2.expiresAt)).length
      + (st.stringCache.filter (fun p => !isExpired now p.2.expiresAt)).length
  (alive, purge st (deadKeysOf st now))

/-- `keys` (lines 417-452): collect the surviving keys of all three
mappings (object, then symbol, then string), delete the dead ones. -/
def keysOp (st : St) (now : Nat) : List JSVal × St :=
  let alive :=
    keysOf (st.cache.filter (fun p => objAlive st now p.2))
      ++ keysOf (st.symbolCache.filter (fun p => !isExpired now p.2.expiresAt))
      ++ keysOf (st.stringCache.filter (fun p => !isExpired now p.2.expiresAt))
  (alive, purge st (deadKeysOf st now))

/-- `clear` (lines 332-358): clear all timers and registrations, empty
every mapping, the ledger and the index, and reset `#currentSize`. -/
def clearOp (st : St) : St :=
  { st with stringCache := [], symbolCache := [], cache := [], lru := []
            currentSize := 0 }

/-- `updateTtl` (lines 481-502): look the key up in the object, symbol and
string caches in that order; if absent everywhere return `false`;
otherwise clear the old timer, arm `#createTtlTimeout(key, ttl)`
unconditionally (no truthiness check, unlike `set`) and stamp
`expiresAt = Date.now() + ttl`. -/
def updateTtlOp (st : St) (now : Nat) (key : JSVal) (ttl : Nat) : Bool × St :=
  match alookup st.cache key with
  | some e =>
    let e2 := { e with timeoutId := some ⟨now, ttl⟩, expiresAt := some (now + ttl) }
    (true, { st with cache := aset st.cache key e2 })
  | none =>
    match alookup st.symbolCache key with
    | some e =>
      let e2 := { e with timeoutId := some ⟨now, ttl⟩, expiresAt := some (now + ttl) }
      (true, { st with symbolCache := aset st.symbolCache key e2 })
    | none =>
      match alookup st.stringCache key with
      | some e =>
        let e2 := { e with timeoutId := some ⟨now, ttl⟩, expiresAt := some (now + ttl) }
        (true, { st with stringCache := aset st.stringCache key e2 })
      | none => (false, st)

/-- `getNotificationOnGC` (lines 214-220): validate, then register in a
finalization registry.  The registry bookkeeping has no cache-visible
state; its callback is modelled by `handleFinalization`. -/
def getNotificationOnGCOp (st : St) (key value : JSVal) : Option String × St :=
  if key = .nullv ∨ key = .undef then
    (some "Key cannot be null or undefined", st)
  else if value = .nullv ∨ value = .undef then
    (some "Value cannot be null or undefined", st)
  else
    (none, st)

/-- The callback of `#createTtlTimeout`: `this.delete(key)`. -/
def fireTtlTimer (st : St) (key : JSVal) : St :=
  (deleteOp st key).2

/-- `#handleFinalization`: `this.delete(heldValue.key)`. -/
def handleFinalization (st : St) (key : JSVal) : St :=
  (deleteOp st key).2

/-- The garbage collector reclaims a `WeakRef` target: from now on
`deref()` returns `undefined` for it.  Entries are untouched (cleanup
happens lazily or through `handleFinalization`). -/
def gcCollect (st : St) (target : JSVal) : St :=
  { st with deadRefs := target :: st.deadRefs }

/-! ## Well-formedness and reachability -/

/-- Structural invariants every state produced by the API enjoys: each
mapping holds only keys of its own `typeof` category, no mapping holds a
key twice, and the LRU ledger holds no key twice. -/
def WF (st : St) : Prop :=
  (∀ p ∈ st.stringCache, typeofKey p.1 = .string)
    ∧ (∀ p ∈ st.symbolCache, typeofKey p.1 = .symbol)
    ∧ (∀ p ∈ st.cache, typeofKey p.1 = .object)
    ∧ (keysOf st.stringCache).Nodup
    ∧ (keysOf st.symbolCache).Nodup
    ∧ (keysOf st.cache).Nodup
    ∧ st.lru.Nodup

instance (st : St) : Decidable (WF st) := by
  unfold WF; infer_instance

/-- The states reachable from a constructed cache through the public
operations and the two asynchronous callbacks (TTL timer fire and
finalization), with garbage collection happening at any point. -/
inductive Reachable : St → Prop where
  | init (defaultTtl maxSize : Option Nat) : Reachable (initState defaultTtl maxSize)
  | set (st : St) (now : Nat) (k v : JSVal) (o : Option SetOptions) :
      Reachable st → Reachable (setOp st now k v o).2
  | get (st : St) (now : Nat) (k : JSVal) :
      Reachable st → Reachable (getOp st now k).2
  | del (st : St) (k : JSVal) :
      Reachable st → Reachable (deleteOp st k).2
  | clear (st : St) : Reachable st → Reachable (clearOp st)
  | size (st : St) (now : Nat) : Reachable st → Reachable (sizeOp st now).2
  | keys (st : St) (now : Nat) : Reachable st → Reachable (keysOp st now).2
  | updTtl (st : St) (now : Nat) (k : JSVal) (t : Nat) :
      Reachable st → Reachable (updateTtlOp st now k t).2
  | timer (st : St) (k : JSVal) : Reachable st → Reachable (fireTtlTimer st k)
  | finalize (st : St) (k : JSVal) : Reachable st → Reachable (handleFinalization st k)
  | gc (st : St) (v : JSVal) : Reachable st → Reachable (gcCollect st v)

end SmartCache

namespace SmartCache

/-! ## Concrete runs used by the claim-level evaluations -/

/-- A cache constructed with `maxSize = 2` after `set('A', 'a')`,
`set('B', 'b')`, `set('C', 'c')` with no intervening reads. -/
def c1Run : St :=
  (setOp (setOp (setOp (initState none (some 2)) 0
    (.str "A") (.str "a") none).2 0
    (.str "B") (.str "b") none).2 0
    (.str "C") (.str "c") none).2

/-- A fresh cache after a single `set('a', 'v')`. -/
def c2Run : St :=
  (setOp (initState none none) 0 (.str "a") (.str "v") none).2

/-- A fresh cache after `set('k', 'v', { ttl: 5 })` at time 0. -/
def c3Run : St :=
  (setOp (initState none none) 0 (.str "k") (.str "v") (some ⟨some 5⟩)).2

/-- A fresh cache after `set('k', 'v', { ttl: 5 })` at time 0; the entry
is expired at every time strictly after 5. -/
def c5Run : St :=
  (setOp (initState none none) 0 (.str "k") (.str "v") (some ⟨some 5⟩)).2

/-- A cache constructed with `defaultTtl = 100` after
`set('k', 'v', { ttl: 0 })` at time 0. -/
def c4Run : St :=
  (setOp (initState (some 100) none) 0 (.str "k") (.str "v") (some ⟨some 0⟩)).2

/-- A fresh cache after `set('k', 'v')`. -/
def c7Run : St :=
  (setOp (initState none none) 0 (.str "k") (.str "v") none).2

/-- A fresh cache after `set('k', 'v')` at time 5. -/
def c10Run : St :=
  (setOp (initState none none) 5 (.str "k") (.str "v") none).2

/-- A fresh cache after `set('a', 'v')` and `set('b', 'w', { ttl: 5 })`
at time 0; at time 10 the second entry is expired. -/
def c8Run : St :=
  (setOp (setOp (initState none none) 0
    (.str "a") (.str "v") none).2 0
    (.str "b") (.str "w") (some ⟨some 5⟩)).2

/-- Whether an entry's `WeakRef` (only object-category entries have one)
no longer dereferences. -/
def entryWeakDead (st : St) : Entry → Bool
  | .obj oe => decide (oe.weakRef ∈ st.deadRefs)
  | _ => false

end SmartCache

namespace SmartCache

/-! ## Lemmas about the `Map` primitives -/

theorem alookup_aset_self {β : Type} (l : List (JSVal × β)) (k : JSVal) (v : β) :
    alookup (aset l k v) k = some v := by
  induction l with
  | nil => simp [aset, alookup]
  | cons p t ih =>
    by_cases h : p.1 = k
    · simp [aset, h, alookup]
    · simp [aset, h, alookup, ih]

theorem alookup_aset_ne {β : Type} (l : List (JSVal × β)) (k k' : JSVal) (v : β)
    (h : k' ≠ k) : alookup (aset l k v) k' = alookup l k' := by
  have hk : ¬k = k' := fun hh => h hh.symm
  induction l with
  | nil => simp [aset, alookup, hk]
  | cons p t ih =>
    by_cases hp : p.1 = k
    · simp [aset, hp, alookup, hk]
    · simp [aset, hp, alookup, ih]

theorem alookup_aerase_self {β : Type} (l : List (JSVal × β)) (k : JSVal) :
    alookup (aerase l k) k = none := by
  induction l with
  | nil => simp [aerase, alookup]
  | cons p t ih =>
    by_cases h : p.1 = k
    · simp [aerase, h, ih]
    · simp [aerase, h, alookup, ih]

theorem alookup_aerase_ne {β : Type} (l : List (JSVal × β)) (k k' : JSVal)
    (h : k' ≠ k) : alookup (aerase l k) k' = alookup l k' := by
  have hk : ¬k = k' := fun hh => h hh.symm
  induction l with
  | nil => simp [aerase]
  | cons p t ih =>
    by_cases hp : p.1 = k
    · simp [aerase, hp, alookup, hk, ih]
    · simp [aerase, hp, alookup, ih]

theorem mem_aset {β : Type} {l : List (JSVal × β)} {k : JSVal} {v : β}
    {p : JSVal × β} (h : p ∈ aset l k v) : p = (k, v) ∨ p ∈ l := by
  induction l with
  | nil => simpa [aset] using h
  | cons q t ih =>
    by_cases hq : q.1 = k
    · simp only [aset, hq, if_true, List.mem_cons] at h
      rcases h with h | h
      · exact .inl h
      · exact .inr (List.mem_cons_of_mem _ h)
    · simp only [aset, hq, if_false, List.mem_cons] at h
      rcases h with h | h
      · exact .inr (h ▸ List.mem_cons_self _ _)
      · rcases ih h with h | h
        · exact .inl h
        · exact .inr (List.mem_cons_of_mem _ h)

theorem mem_aerase {β : Type} {l : List (JSVal × β)} {k : JSVal}
    {p : JSVal × β} (h : p ∈ aerase l k) : p ∈ l := by
  induction l with
  | nil => simp [aerase] at h
  | cons q t ih =>
    by_cases hq : q.1 = k
    · simp only [aerase, hq, if_true] at h
      exact List.mem_cons_of_mem _ (ih h)
    · simp only [aerase, hq, if_false, List.mem_cons] at h
      rcases h with h | h
      · exact h ▸ List.mem_cons_self _ _
      · exact List.mem_cons_of_mem _ (ih h)

theorem alookup_mem {β : Type} {l : List (JSVal × β)} {k : JSVal} {v : β}
    (h : alookup l k = some v) : (k, v) ∈ l := by
  induction l with
  | nil => simp [alookup] at h
  | cons p t ih =>
    by_cases hp : p.1 = k
    · simp only [alookup, hp, if_true, Option.some.injEq] at h
      rcases p with ⟨k', v'⟩
      simp only at hp
      subst hp h
      exact List.mem_cons_self _ _
    · simp only [alookup, hp, if_false] at h
      exact List.mem_cons_of_mem _ (ih h)

theorem alookup_eq_none_iff {β : Type} (l : List (JSVal × β)) (k : JSVal) :
    alookup l k = none ↔ k ∉ keysOf l := by
  induction l with
  | nil => simp [alookup, keysOf]
  | cons p t ih =>
    by_cases hp : p.1 = k
    · simp [alookup, hp, keysOf]
    · have hk : ¬k = p.1 := fun hh => hp hh.symm
      simp [alookup, hp, keysOf, hk, ih]

theorem mem_keysOf_aerase {β : Type} {l : List (JSVal × β)} {k x : JSVal}
    (h : x ∈ keysOf (aerase l k)) : x ∈ keysOf l := by
  simp only [keysOf, List.mem_map] at h ⊢
  obtain ⟨p, hp, rfl⟩ := h
  exact ⟨p, mem_aerase hp, rfl⟩

theorem nodup_keysOf_aerase {β : Type} {l : List (JSVal × β)} (k : JSVal)
    (h : (keysOf l).Nodup) : (keysOf (aerase l k)).Nodup := by
  induction l with
  | nil => simp [aerase, keysOf]
  | cons p t ih =>
    simp only [keysOf, List.map_cons, List.nodup_cons] at h
    by_cases hp : p.1 = k
    · simp only [aerase, hp, if_true]
      exact ih h.2
    · simp only [aerase, hp, if_false, keysOf, List.map_cons, List.nodup_cons]
      exact ⟨fun hm => h.1 (mem_keysOf_aerase hm), ih h.2⟩

theorem mem_keysOf_aset {β : Type} {l : List (JSVal × β)} {k x : JSVal} {v : β}
    (h : x ∈ keysOf (aset l k v)) : x ∈ keysOf l ∨ x = k := by
  simp only [keysOf, List.mem_map] at h ⊢
  obtain ⟨p, hp, rfl⟩ := h
  rcases mem_aset hp with h | h
  · right; rw [h]
  · left; exact ⟨p, h, rfl⟩

theorem nodup_keysOf_aset {β : Type} {l : List (JSVal × β)} (k : JSVal) (v : β)
    (h : (keysOf l).Nodup) : (keysOf (aset l k v)).Nodup := by
  induction l with
  | nil => simp [aset, keysOf]
  | cons p t ih =>
    simp only [keysOf, List.map_cons, List.nodup_cons] at h
    by_cases hp : p.1 = k
    · simp only [aset, hp, if_true, keysOf, List.map_cons, List.nodup_cons]
      exact ⟨by rw [← hp]; exact h.1, h.2⟩
    · simp only [aset, hp, if_false, keysOf, List.map_cons, List.nodup_cons]
      refine ⟨?_, ih h.2⟩
      intro hm
      rcases mem_keysOf_aset hm with hm | hm
      · exact h.1 hm
      · exact hp hm

end SmartCache

namespace SmartCache

/-! ## Field-projection lemmas for the operations -/

@[simp] theorem updateLRU_stringCache (st : St) (k : JSVal) :
    (updateLRU st k).stringCache = st.stringCache := by
  unfold updateLRU; split <;> (try split) <;> rfl

@[simp] theorem updateLRU_symbolCache (st : St) (k : JSVal) :
    (updateLRU st k).symbolCache = st.symbolCache := by
  unfold updateLRU; split <;> (try split) <;> rfl

@[simp] theorem updateLRU_cache (st : St) (k : JSVal) :
    (updateLRU st k).cache = st.cache := by
  unfold updateLRU; split <;> (try split) <;> rfl

@[simp] theorem updateLRU_deadRefs (st : St) (k : JSVal) :
    (updateLRU st k).deadRefs = st.deadRefs := by
  unfold updateLRU; split <;> (try split) <;> rfl

@[simp] theorem updateLRU_defaultTtl (st : St) (k : JSVal) :
    (updateLRU st k).defaultTtl = st.defaultTtl := by
  unfold updateLRU; split <;> (try split) <;> rfl

@[simp] theorem updateLRU_maxSize (st : St) (k : JSVal) :
    (updateLRU st k).maxSize = st.maxSize := by
  unfold updateLRU; split <;> (try split) <;> rfl

@[simp] theorem updateLRU_currentSize (st : St) (k : JSVal) :
    (updateLRU st k).currentSize = st.currentSize := by
  unfold updateLRU; split <;> (try split) <;> rfl

@[simp] theorem updateLRU_nextToken (st : St) (k : JSVal) :
    (updateLRU st k).nextToken = st.nextToken := by
  unfold updateLRU; split <;> (try split) <;> rfl

@[simp] theorem deleteOp_deadRefs (st : St) (k : JSVal) :
    ((deleteOp st k).2).deadRefs = st.deadRefs := by
  unfold deleteOp
  cases typeofKey k <;> dsimp only [] <;> split <;> (try split) <;> rfl

@[simp] theorem deleteOp_defaultTtl (st : St) (k : JSVal) :
    ((deleteOp st k).2).defaultTtl = st.defaultTtl := by
  unfold deleteOp
  cases typeofKey k <;> dsimp only [] <;> split <;> (try split) <;> rfl

@[simp] theorem deleteOp_maxSize (st : St) (k : JSVal) :
    ((deleteOp st k).2).maxSize = st.maxSize := by
  unfold deleteOp
  cases typeofKey k <;> dsimp only [] <;> split <;> (try split) <;> rfl

@[simp] theorem deleteOp_nextToken (st : St) (k : JSVal) :
    ((deleteOp st k).2).nextToken = st.nextToken := by
  unfold deleteOp
  cases typeofKey k <;> dsimp only [] <;> split <;> (try split) <;> rfl

@[simp] theorem evictLRU_deadRefs (st : St) :
    (evictLRU st).deadRefs = st.deadRefs := by
  unfold evictLRU; split <;> simp

@[simp] theorem evictLRU_defaultTtl (st : St) :
    (evictLRU st).defaultTtl = st.defaultTtl := by
  unfold evictLRU; split <;> simp

@[simp] theorem evictLRU_maxSize (st : St) :
    (evictLRU st).maxSize = st.maxSize := by
  unfold evictLRU; split <;> simp

@[simp] theorem evictLRU_nextToken (st : St) :
    (evictLRU st).nextToken = st.nextToken := by
  unfold evictLRU; split <;> simp

end SmartCache

namespace SmartCache

theorem aerase_eq_of_not_mem {β : Type} {l : List (JSVal × β)} {k : JSVal}
    (h : k ∉ keysOf l) : aerase l k = l := by
  induction l with
  | nil => rfl
  | cons p t ih =>
    simp only [keysOf, List.map_cons, List.mem_cons] at h
    push_neg at h
    have hp : ¬p.1 = k := fun hh => h.1 hh.symm
    simp only [aerase, hp, if_false]
    rw [ih]
    intro hm; exact h.2 hm

theorem deleteOp_stringCache (st : St) (k : JSVal) :
    ((deleteOp st k).2).stringCache =
      if typeofKey k = KeyType.string then aerase st.stringCache k
      else st.stringCache := by
  have hlru : (if k ∈ st.lru then { st with lru := st.lru.erase k } else st).stringCache
      = st.stringCache := by split <;> rfl
  cases htk : typeofKey k <;> simp only [deleteOp, htk, if_true, if_false] <;>
    split <;>
    simp_all [aerase_eq_of_not_mem, alookup_eq_none_iff]

end SmartCache

namespace SmartCache

theorem deleteOp_symbolCache (st : St) (k : JSVal) :
    ((deleteOp st k).2).symbolCache =
      if typeofKey k = KeyType.symbol then aerase st.symbolCache k
      else st.symbolCache := by
  have hlru : (if k ∈ st.lru then { st with lru := st.lru.erase k } else st).symbolCache
      = st.symbolCache := by split <;> rfl
  cases htk : typeofKey k <;> simp only [deleteOp, htk, if_true, if_false] <;>
    split <;>
    simp_all [aerase_eq_of_not_mem, alookup_eq_none_iff]

theorem deleteOp_cache (st : St) (k : JSVal) :
    ((deleteOp st k).2).cache =
      if typeofKey k = KeyType.object then aerase st.cache k
      else st.cache := by
  have hlru : (if k ∈ st.lru then { st with lru := st.lru.erase k } else st).cache
      = st.cache := by split <;> rfl
  cases htk : typeofKey k <;> simp only [deleteOp, htk, if_true, if_false] <;>
    split <;>
    simp_all [aerase_eq_of_not_mem, alookup_eq_none_iff]

theorem deleteOp_lru (st : St) (k : JSVal) :
    ((deleteOp st k).2).lru = st.lru.erase k := by
  have hself : st.lru.erase k = if k ∈ st.lru then st.lru.erase k else st.lru := by
    split
    · rfl
    · next hm => exact List.erase_of_not_mem hm
  rw [hself]
  cases htk : typeofKey k <;> simp only [deleteOp, htk] <;>
    split <;> split <;> simp_all

end SmartCache

namespace SmartCache

/-! ## Well-formedness is preserved by every operation -/

theorem wf_initState (d m : Option Nat) : WF (initState d m) := by
  unfold WF initState keysOf; simp

theorem wf_updateLRU {st : St} (h : WF st) (k : JSVal) : WF (updateLRU st k) := by
  obtain ⟨h1, h2, h3, h4, h5, h6, h7⟩ := h
  refine ⟨?_, ?_, ?_, ?_, ?_, ?_, ?_⟩ <;>
    first
    | (intro p hp
       first
       | exact h1 p (by rwa [updateLRU_stringCache] at hp)
       | exact h2 p (by rwa [updateLRU_symbolCache] at hp)
       | exact h3 p (by rwa [updateLRU_cache] at hp))
    | (first
       | rwa [updateLRU_stringCache]
       | rwa [updateLRU_symbolCache]
       | rwa [updateLRU_cache]
       | skip)
  -- remaining goal: the LRU list stays duplicate-free
  unfold updateLRU
  split
  · split
    · exact h7
    · next hm _ =>
      rw [List.nodup_append]
      exact ⟨h7.erase k, List.nodup_singleton k,
        List.disjoint_singleton.mpr h7.not_mem_erase⟩
  · next hm =>
    rw [List.nodup_append]
    exact ⟨h7, List.nodup_singleton k, List.disjoint_singleton.mpr hm⟩

theorem wf_deleteOp {st : St} (h : WF st) (k : JSVal) : WF ((deleteOp st k).2) := by
  obtain ⟨h1, h2, h3, h4, h5, h6, h7⟩ := h
  refine ⟨?_, ?_, ?_, ?_, ?_, ?_, ?_⟩
  · intro p hp
    rw [deleteOp_stringCache] at hp
    split at hp
    · exact h1 p (mem_aerase hp)
    · exact h1 p hp
  · intro p hp
    rw [deleteOp_symbolCache] at hp
    split at hp
    · exact h2 p (mem_aerase hp)
    · exact h2 p hp
  · intro p hp
    rw [deleteOp_cache] at hp
    split at hp
    · exact h3 p (mem_aerase hp)
    · exact h3 p hp
  · rw [deleteOp_stringCache]; split
    · exact nodup_keysOf_aerase k h4
    · exact h4
  · rw [deleteOp_symbolCache]; split
    · exact nodup_keysOf_aerase k h5
    · exact h5
  · rw [deleteOp_cache]; split
    · exact nodup_keysOf_aerase k h6
    · exact h6
  · rw [deleteOp_lru]; exact h7.erase k

theorem wf_evictLRU {st : St} (h : WF st) : WF (evictLRU st) := by
  unfold evictLRU
  split
  · exact h
  · exact wf_deleteOp h _

end SmartCache

namespace SmartCache

theorem wf_setPrelude {st : St} (h : WF st) (k : JSVal) : WF (setPrelude st k) := by
  unfold setPrelude
  dsimp only
  set st1 := if entryPresent st k then updateLRU (deleteOp st k).2 k else st with h1
  have hst1 : WF st1 := by
    rw [h1]
    split
    · exact wf_updateLRU (wf_deleteOp h k) k
    · exact h
  split
  · exact wf_evictLRU hst1
  · exact hst1

theorem wf_setOp {st : St} (h : WF st) (now : Nat) (k v : JSVal)
    (o : Option SetOptions) : WF ((setOp st now k v o).2) := by
  unfold setOp
  split
  · exact h
  split
  · exact h
  obtain ⟨h1, h2, h3, h4, h5, h6, h7⟩ := wf_setPrelude h k
  cases htk : typeofKey k
  case string =>
    refine ⟨?_, h2, h3, ?_, h5, h6, h7⟩
    · intro p hp
      rcases mem_aset hp with hp | hp
      · rw [hp]; exact htk
      · exact h1 p hp
    · exact nodup_keysOf_aset _ _ h4
  case symbol =>
    refine ⟨h1, ?_, h3, h4, ?_, h6, h7⟩
    · intro p hp
      rcases mem_aset hp with hp | hp
      · rw [hp]; exact htk
      · exact h2 p hp
    · exact nodup_keysOf_aset _ _ h5
  case object =>
    cases v with
    | arr n => exact ⟨h1, h2, h3, h4, h5, h6, h7⟩
    | obj n =>
      refine ⟨h1, h2, ?_, h4, h5, ?_, h7⟩
      · intro p hp
        rcases mem_aset hp with hp | hp
        · rw [hp]; exact htk
        · exact h3 p hp
      · exact nodup_keysOf_aset _ _ h6
    | sym n =>
      refine ⟨h1, h2, ?_, h4, h5, ?_, h7⟩
      · intro p hp
        rcases mem_aset hp with hp | hp
        · rw [hp]; exact htk
        · exact h3 p hp
      · exact nodup_keysOf_aset _ _ h6
    | nullv => exact ⟨h1, h2, h3, h4, h5, h6, h7⟩
    | undef => exact ⟨h1, h2, h3, h4, h5, h6, h7⟩
    | boolean b => exact ⟨h1, h2, h3, h4, h5, h6, h7⟩
    | num n => exact ⟨h1, h2, h3, h4, h5, h6, h7⟩
    | str s => exact ⟨h1, h2, h3, h4, h5, h6, h7⟩

theorem wf_getOp {st : St} (h : WF st) (now : Nat) (k : JSVal) :
    WF ((getOp st now k).2) := by
  unfold getOp
  split
  · exact h
  split
  · exact wf_deleteOp h k
  split
  · exact wf_updateLRU h k
  · exact wf_updateLRU h k
  · dsimp only
    split
    · exact wf_deleteOp (wf_updateLRU h k) k
    · exact wf_updateLRU h k

theorem wf_purge {st : St} (h : WF st) (ks : List JSVal) : WF (purge st ks) := by
  induction ks generalizing st with
  | nil => exact h
  | cons a t ih => exact ih (wf_deleteOp h a)

theorem wf_sizeOp {st : St} (h : WF st) (now : Nat) : WF ((sizeOp st now).2) :=
  wf_purge h _

theorem wf_keysOp {st : St} (h : WF st) (now : Nat) : WF ((keysOp st now).2) :=
  wf_purge h _

theorem wf_clearOp {st : St} (_ : WF st) : WF (clearOp st) := by
  unfold WF clearOp keysOf; simp

theorem wf_updateTtlOp {st : St} (h : WF st) (now : Nat) (k : JSVal) (t : Nat) :
    WF ((updateTtlOp st now k t).2) := by
  obtain ⟨h1, h2, h3, h4, h5, h6, h7⟩ := h
  unfold updateTtlOp
  split
  · next e heq =>
    refine ⟨h1, h2, ?_, h4, h5, nodup_keysOf_aset _ _ h6, h7⟩
    intro p hp
    rcases mem_aset hp with hp | hp
    · rw [hp]; exact h3 (k, e) (alookup_mem heq)
    · exact h3 p hp
  split
  · next e heq =>
    refine ⟨h1, ?_, h3, h4, nodup_keysOf_aset _ _ h5, h6, h7⟩
    intro p hp
    rcases mem_aset hp with hp | hp
    · rw [hp]; exact h2 (k, e) (alookup_mem heq)
    · exact h2 p hp
  split
  · next e heq =>
    refine ⟨?_, h2, h3, nodup_keysOf_aset _ _ h4, h5, h6, h7⟩
    intro p hp
    rcases mem_aset hp with hp | hp
    · rw [hp]; exact h1 (k, e) (alookup_mem heq)
    · exact h1 p hp
  · exact ⟨h1, h2, h3, h4, h5, h6, h7⟩

theorem wf_gcCollect {st : St} (h : WF st) (v : JSVal) : WF (gcCollect st v) := h

/-- Every reachable state is well-formed. -/
theorem reachable_wf {st : St} (h : Reachable st) : WF st := by
  induction h with
  | init d m => exact wf_initState d m
  | set st now k v o _ ih => exact wf_setOp ih now k v o
  | get st now k _ ih => exact wf_getOp ih now k
  | del st k _ ih => exact wf_deleteOp ih k
  | clear st _ ih => exact wf_clearOp ih
  | size st now _ ih => exact wf_sizeOp ih now
  | keys st now _ ih => exact wf_keysOp ih now
  | updTtl st now k t _ ih => exact wf_updateTtlOp ih now k t
  | timer st k _ ih => exact wf_deleteOp ih k
  | finalize st k _ ih => exact wf_deleteOp ih k
  | gc st v _ ih => exact wf_gcCollect ih v

end SmartCache

namespace SmartCache

/-! ## Characterizing a successful insertion -/

theorem alookup_aerase_none {β : Type} (l : List (JSVal × β)) (k k' : JSVal)
    (h : alookup l k = none) : alookup (aerase l k') k = none := by
  by_cases hk : k = k'
  · subst hk; exact alookup_aerase_self l k
  · rw [alookup_aerase_ne l k' k hk]; exact h

theorem entryPresent_string (st : St) (k : JSVal) (h : typeofKey k = KeyType.string) :
    entryPresent st k = (alookup st.stringCache k).isSome := by
  unfold entryPresent getEntry
  rw [h]
  cases alookup st.stringCache k <;> rfl

theorem entryPresent_symbol (st : St) (k : JSVal) (h : typeofKey k = KeyType.symbol) :
    entryPresent st k = (alookup st.symbolCache k).isSome := by
  unfold entryPresent getEntry
  rw [h]
  cases alookup st.symbolCache k <;> rfl

theorem entryPresent_object (st : St) (k : JSVal) (h : typeofKey k = KeyType.object) :
    entryPresent st k = (alookup st.cache k).isSome := by
  unfold entryPresent getEntry
  rw [h]
  cases alookup st.cache k <;> rfl

/-- `delete` leaves no entry for the deleted key behind. -/
theorem entryPresent_deleteOp_self (st : St) (k : JSVal) :
    entryPresent ((deleteOp st k).2) k = false := by
  cases htk : typeofKey k
  case string =>
    rw [entryPresent_string _ _ htk, deleteOp_stringCache, htk, if_pos rfl,
      alookup_aerase_self]
    rfl
  case symbol =>
    rw [entryPresent_symbol _ _ htk, deleteOp_symbolCache, htk, if_pos rfl,
      alookup_aerase_self]
    rfl
  case object =>
    rw [entryPresent_object _ _ htk, deleteOp_cache, htk, if_pos rfl,
      alookup_aerase_self]
    rfl

/-- `delete` never creates an entry. -/
theorem entryPresent_deleteOp_of_absent (st : St) (k k' : JSVal)
    (h : entryPresent st k = false) : entryPresent ((deleteOp st k').2) k = false := by
  cases htk : typeofKey k
  case string =>
    rw [entryPresent_string _ _ htk] at h ⊢
    rw [deleteOp_stringCache]
    split
    · rw [alookup_aerase_none]
      · rfl
      · cases hl : alookup st.stringCache k
        · rfl
        · rw [hl] at h; simp at h
    · exact h
  case symbol =>
    rw [entryPresent_symbol _ _ htk] at h ⊢
    rw [deleteOp_symbolCache]
    split
    · rw [alookup_aerase_none]
      · rfl
      · cases hl : alookup st.symbolCache k
        · rfl
        · rw [hl] at h; simp at h
    · exact h
  case object =>
    rw [entryPresent_object _ _ htk] at h ⊢
    rw [deleteOp_cache]
    split
    · rw [alookup_aerase_none]
      · rfl
      · cases hl : alookup st.cache k
        · rfl
        · rw [hl] at h; simp at h
    · exact h

theorem entryPresent_updateLRU (st : St) (k k' : JSVal) :
    entryPresent (updateLRU st k') k = entryPresent st k := by
  unfold entryPresent getEntry
  cases typeofKey k <;> simp

theorem entryPresent_evictLRU_of_absent (st : St) (k : JSVal)
    (h : entryPresent st k = false) : entryPresent (evictLRU st) k = false := by
  unfold evictLRU
  split
  · exact h
  · exact entryPresent_deleteOp_of_absent st k _ h

/-- The `set` prelude changes no configuration and no GC state. -/
theorem setPrelude_defaultTtl (st : St) (k : JSVal) :
    (setPrelude st k).defaultTtl = st.defaultTtl := by
  unfold setPrelude
  dsimp only
  split <;> split <;> simp

theorem setPrelude_deadRefs (st : St) (k : JSVal) :
    (setPrelude st k).deadRefs = st.deadRefs := by
  unfold setPrelude
  dsimp only
  split <;> split <;> simp

/-- After the `set` prelude the key has no entry: either it was absent or
`#cleanupExistingEntry` just deleted it, and eviction removes entries only. -/
theorem setPrelude_absent (st : St) (k : JSVal) :
    entryPresent (setPrelude st k) k = false := by
  unfold setPrelude
  dsimp only
  set st1 := if entryPresent st k then updateLRU (deleteOp st k).2 k else st with h1
  have habs : entryPresent st1 k = false := by
    rw [h1]
    split
    · rw [entryPresent_updateLRU]
      exact entryPresent_deleteOp_self st k
    · next hp => simpa using hp
  split
  · unfold evictLRU
    split
    · exact habs
    · exact entryPresent_deleteOp_of_absent st1 k _ habs
  · exact habs

/-- A successful `set` whose key still resolves afterwards left exactly the
freshly-built entry under that key: its `expiresAt`/`timeoutId` follow the
effective-TTL rule and its payload is the stored value. -/
theorem setOp_inserted (st : St) (now : Nat) (k v : JSVal) (o : Option SetOptions)
    (hok : (setOp st now k v o).1 = none)
    (hin : entryPresent (setOp st now k v o).2 k = true) :
    ∃ e, (getEntry (setOp st now k v o).2 k).1 = some e
      ∧ e.expiresAt = ttlExpiresAt now (effectiveTtl o st.defaultTtl)
      ∧ e.timeoutId = ttlTimeout now (effectiveTtl o st.defaultTtl)
      ∧ e.payload = v := by
  unfold setOp at hok hin ⊢
  by_cases hk : k = JSVal.nullv ∨ k = JSVal.undef
  · rw [if_pos hk] at hok; simp at hok
  rw [if_neg hk] at hok hin ⊢
  by_cases hv : v = JSVal.nullv ∨ v = JSVal.undef
  · rw [if_pos hv] at hok; simp at hok
  rw [if_neg hv] at hok hin ⊢
  dsimp only at hok hin ⊢
  have hd2 : (setPrelude st k).defaultTtl = st.defaultTtl := setPrelude_defaultTtl st k
  cases htk : typeofKey k with
  | string =>
    rw [htk] at hok hin
    dsimp only at hok hin ⊢
    refine ⟨.str ⟨v, ttlTimeout now (effectiveTtl o (setPrelude st k).defaultTtl),
      ttlExpiresAt now (effectiveTtl o (setPrelude st k).defaultTtl), now⟩, ?_, ?_, ?_, ?_⟩
    · unfold getEntry
      rw [htk]
      simp [alookup_aset_self]
    · simp [Entry.expiresAt, hd2]
    · simp [Entry.timeoutId, hd2]
    · simp [Entry.payload]
  | symbol =>
    rw [htk] at hok hin
    dsimp only at hok hin ⊢
    refine ⟨.sym ⟨v, ttlTimeout now (effectiveTtl o (setPrelude st k).defaultTtl),
      ttlExpiresAt now (effectiveTtl o (setPrelude st k).defaultTtl), now,
      (setPrelude st k).nextToken⟩, ?_, ?_, ?_, ?_⟩
    · unfold getEntry
      rw [htk]
      simp [alookup_aset_self]
    · simp [Entry.expiresAt, hd2]
    · simp [Entry.timeoutId, hd2]
    · simp [Entry.payload]
  | object =>
    rw [htk] at hok hin
    dsimp only at hok hin ⊢
    cases v with
    | arr n =>
      rw [setPrelude_absent st k] at hin
      exact absurd hin (by simp)
    | obj n =>
      refine ⟨.obj ⟨.obj n, ttlTimeout now (effectiveTtl o (setPrelude st k).defaultTtl),
        ttlExpiresAt now (effectiveTtl o (setPrelude st k).defaultTtl), now,
        (setPrelude st k).nextToken⟩, ?_, ?_, ?_, ?_⟩
      · unfold getEntry
        rw [htk]
        simp [alookup_aset_self]
      · simp [Entry.expiresAt, hd2]
      · simp [Entry.timeoutId, hd2]
      · simp [Entry.payload]
    | sym n =>
      refine ⟨.obj ⟨.sym n, ttlTimeout now (effectiveTtl o (setPrelude st k).defaultTtl),
        ttlExpiresAt now (effectiveTtl o (setPrelude st k).defaultTtl), now,
        (setPrelude st k).nextToken⟩, ?_, ?_, ?_, ?_⟩
      · unfold getEntry
        rw [htk]
        simp [alookup_aset_self]
      · simp [Entry.expiresAt, hd2]
      · simp [Entry.timeoutId, hd2]
      · simp [Entry.payload]
    | nullv => exact absurd (Or.inl rfl) hv
    | undef => exact absurd (Or.inr rfl) hv
    | boolean b => simp at hok
    | num n => simp at hok
    | str s => simp at hok

end SmartCache

namespace SmartCache

/-! ## The behaviour of `get` and `has` on a present entry -/

theorem hasOp_eq (st : St) (now : Nat) (k : JSVal) (e : Entry)
    (he : (getEntry st k).1 = some e) :
    hasOp st now k = (!isExpired now e.expiresAt && !entryWeakDead st e) := by
  unfold getEntry at he
  cases htk : typeofKey k <;> rw [htk] at he <;> dsimp only at he <;>
    rw [Option.map_eq_some'] at he <;> obtain ⟨se, hse, rfl⟩ := he <;>
    unfold hasOp <;> rw [htk] <;> dsimp only <;> rw [hse]
  · simp [Entry.expiresAt, entryWeakDead]
  · simp [Entry.expiresAt, entryWeakDead]
  · by_cases hex : isExpired now se.expiresAt
    · simp [hex, Entry.expiresAt]
    · simp [hex, Entry.expiresAt, entryWeakDead, derefOf]
      split <;> simp_all

theorem getOp_expired (st : St) (now : Nat) (k : JSVal) (e : Entry)
    (he : (getEntry st k).1 = some e)
    (hx : optTruthy e.expiresAt = true) (hex : isExpired now e.expiresAt = true) :
    (getOp st now k).1 = none
      ∧ entryPresent (getOp st now k).2 k = false := by
  unfold getOp
  rw [he]
  dsimp only
  rw [if_pos ⟨hx, hex⟩]
  exact ⟨rfl, entryPresent_deleteOp_self st k⟩

theorem getOp_live (st : St) (now : Nat) (k : JSVal) (e : Entry)
    (he : (getEntry st k).1 = some e)
    (hno : ¬(optTruthy e.expiresAt = true ∧ isExpired now e.expiresAt = true))
    (halive : entryWeakDead st e = false) :
    (getOp st now k).1 = some e.payload := by
  unfold getOp
  rw [he]
  dsimp only
  rw [if_neg hno]
  cases e with
  | str se => rfl
  | sym se => rfl
  | obj oe =>
    dsimp only
    unfold entryWeakDead at halive
    have : derefOf (updateLRU st k) oe.weakRef = some oe.weakRef := by
      unfold derefOf
      rw [updateLRU_deadRefs]
      simp only [decide_eq_false_iff_not] at halive
      rw [if_neg halive]
    rw [this]
    rfl

theorem getOp_dead (st : St) (now : Nat) (k : JSVal) (oe : ObjEntry)
    (he : (getEntry st k).1 = some (.obj oe))
    (hno : ¬(optTruthy (Entry.obj oe).expiresAt = true
        ∧ isExpired now (Entry.obj oe).expiresAt = true))
    (hdead : oe.weakRef ∈ st.deadRefs) :
    (getOp st now k).1 = none
      ∧ entryPresent (getOp st now k).2 k = false := by
  unfold getOp
  rw [he]
  dsimp only
  rw [if_neg hno]
  have : derefOf (updateLRU st k) oe.weakRef = none := by
    unfold derefOf
    rw [updateLRU_deadRefs, if_pos hdead]
  rw [this]
  exact ⟨rfl, entryPresent_deleteOp_self _ k⟩

end SmartCache

namespace SmartCache

/-! ## `delete` return value and idempotence -/

/-- `delete` returns whether an entry was removed, which is exactly
whether the key's mapping held one. -/
theorem deleteOp_fst (st : St) (k : JSVal) :
    (deleteOp st k).1 = entryPresent st k := by
  have hlru : ∀ l : List (JSVal × StrEntry),
      (if k ∈ st.lru then { st with lru := st.lru.erase k } else st).stringCache
        = st.stringCache := fun _ => by split <;> rfl
  cases htk : typeofKey k
  case string =>
    rw [entryPresent_string st k htk]
    unfold deleteOp
    rw [htk]
    dsimp only
    have : (if k ∈ st.lru then { st with lru := st.lru.erase k } else st).stringCache
        = st.stringCache := by split <;> rfl
    rw [this]
    cases alookup st.stringCache k <;> rfl
  case symbol =>
    rw [entryPresent_symbol st k htk]
    unfold deleteOp
    rw [htk]
    dsimp only
    have : (if k ∈ st.lru then { st with lru := st.lru.erase k } else st).symbolCache
        = st.symbolCache := by split <;> rfl
    rw [this]
    cases alookup st.symbolCache k <;> rfl
  case object =>
    rw [entryPresent_object st k htk]
    unfold deleteOp
    rw [htk]
    dsimp only
    have : (if k ∈ st.lru then { st with lru := st.lru.erase k } else st).cache
        = st.cache := by split <;> rfl
    rw [this]
    cases alookup st.cache k <;> rfl

/-- `delete` on a key that is in neither the ledger index nor any mapping
changes nothing and reports `false`. -/
theorem deleteOp_noop (st : St) (k : JSVal) (hl : k ∉ st.lru)
    (ha : entryPresent st k = false) : deleteOp st k = (false, st) := by
  unfold deleteOp
  rw [if_neg hl]
  cases htk : typeofKey k
  case string =>
    rw [entryPresent_string st k htk] at ha
    dsimp only
    cases hc : alookup st.stringCache k
    · rfl
    · rw [hc] at ha; simp at ha
  case symbol =>
    rw [entryPresent_symbol st k htk] at ha
    dsimp only
    cases hc : alookup st.symbolCache k
    · rfl
    · rw [hc] at ha; simp at ha
  case object =>
    rw [entryPresent_object st k htk] at ha
    dsimp only
    cases hc : alookup st.cache k
    · rfl
    · rw [hc] at ha; simp at ha

/-- In a kind-correct association list, a key of the wrong kind is absent. -/
theorem alookup_none_of_kind {β : Type} (l : List (JSVal × β)) (k : JSVal)
    (t : KeyType) (hall : ∀ p ∈ l, typeofKey p.1 = t) (hk : typeofKey k ≠ t) :
    alookup l k = none := by
  cases hl : alookup l k
  · rfl
  · exact absurd (hall _ (alookup_mem hl)) hk

end SmartCache

namespace SmartCache

/-! ## Claim-level theorems -/

/-- C1: the claimed LRU capacity bound FAILS on the code.  `set` never
registers a brand-new key in the LRU ledger (`#updateLRU` runs only in the
overwrite branch of `set` and in `get`), so after inserting A, B, C into a
`maxSize = 2` cache with no intervening reads, `#evictLRU` found an empty
ledger and evicted nothing: all three entries are live (`size` is 3 and
`has('A')` is still true), and the state is reachable. -/
theorem C1_capacity_eval :
    Reachable c1Run
      ∧ (sizeOp c1Run 0).1 = 3
      ∧ hasOp c1Run 0 (.str "A") = true
      ∧ hasOp c1Run 0 (.str "B") = true
      ∧ hasOp c1Run 0 (.str "C") = true
      ∧ c1Run.lru = [] := by
  refine ⟨?_, by decide, by decide, by decide, by decide, by decide⟩
  have h0 : Reachable (initState none (some 2)) := .init none (some 2)
  have h1 := Reachable.set _ 0 (.str "A") (.str "a") none h0
  have h2 := Reachable.set _ 0 (.str "B") (.str "b") none h1
  exact Reachable.set _ 0 (.str "C") (.str "c") none h2

/-- C2: the claimed ledger/mapping correspondence FAILS on the code: after
a single `set('a', 'v')` on a fresh cache — a reachable state — the string
mapping holds one entry while the LRU ledger and its index are empty, so
the ledger size differs from the sum of the three mapping sizes. -/
theorem C2_ledger_eval :
    Reachable c2Run
      ∧ c2Run.lru.length = 0
      ∧ c2Run.stringCache.length + c2Run.symbolCache.length + c2Run.cache.length = 1 := by
  refine ⟨?_, by decide, by decide⟩
  exact Reachable.set _ 0 (.str "a") (.str "v") none (.init none none)

/-- C3 (counterexample): `#isExpired` uses strict `>`; with
`set('k', 'v', { ttl: 5 })` at time T = 0, `get` and `has` at time
exactly T + t = 5 still return the value, where the claim demands
not-found at every time ≥ T + t. -/
theorem C3_boundary_counterexample :
    (getOp c3Run (0 + 5) (.str "k")).1 = some (.str "v")
      ∧ hasOp c3Run (0 + 5) (.str "k") = true := by decide

/-- C3 (amended): for a key set with ttl t > 0 at time T, `get` and `has`
return not-found at any time STRICTLY after T + t, and return the stored
value at any time ≤ T + t while the value is still live (its weak target,
if any, not collected). -/
theorem C3_ttl_strict (st st' : St) (T t : Nat) (k v : JSVal) (ht : 0 < t)
    (hst : st' = (setOp st T k v (some ⟨some t⟩)).2)
    (hok : (setOp st T k v (some ⟨some t⟩)).1 = none)
    (hin : entryPresent st' k = true) :
    (∀ now, T + t < now →
        (getOp st' now k).1 = none ∧ hasOp st' now k = false)
      ∧ (∀ now, now ≤ T + t → v ∉ st'.deadRefs →
        (getOp st' now k).1 = some v ∧ hasOp st' now k = true) := by
  subst hst
  obtain ⟨e, he, hexp, htout, hpay⟩ := setOp_inserted st T k v _ hok hin
  have ht0 : t ≠ 0 := Nat.pos_iff_ne_zero.mp ht
  have hexp' : e.expiresAt = some (T + t) := by
    rw [hexp]
    simp [effectiveTtl, ttlExpiresAt, optTruthy, ht0]
  have hwd : ∀ hv : v ∉ ((setOp st T k v (some ⟨some t⟩)).2).deadRefs,
      entryWeakDead (setOp st T k v (some ⟨some t⟩)).2 e = false := by
    intro hv
    cases e with
    | str se => rfl
    | sym se => rfl
    | obj oe =>
      dsimp only [entryWeakDead]
      dsimp only [Entry.payload] at hpay
      rw [hpay]
      simpa using hv
  constructor
  · intro now hnow
    have hx : optTruthy e.expiresAt = true := by
      rw [hexp']; simp [optTruthy]; omega
    have hex : isExpired now e.expiresAt = true := by
      rw [hexp']; simp [isExpired]; omega
    refine ⟨(getOp_expired _ now _ _ he hx hex).1, ?_⟩
    rw [hasOp_eq _ now _ _ he, hex]
    rfl
  · intro now hnow hv
    have hex : isExpired now e.expiresAt = false := by
      rw [hexp']; simp [isExpired]; omega
    refine ⟨?_, ?_⟩
    · have := getOp_live _ now _ _ he (by rw [hex]; simp) (hwd hv)
      rw [hpay] at this
      exact this
    · rw [hasOp_eq _ now _ _ he, hex, hwd hv]
      rfl

/-- C3 (witness for the amended theorem): the concrete run behind the
counterexample, checked strictly after the deadline. -/
theorem C3_ttl_strict_witness :
    (getOp c3Run 6 (.str "k")).1 = none ∧ hasOp c3Run 6 (.str "k") = false :=
  (C3_ttl_strict (initState none none) c3Run 0 5 (.str "k") (.str "v")
    (by decide) rfl (by decide) (by decide)).1 6 (by decide)

/-- C4: `set(k, v, { ttl: 0 })` creates an entry with no expiry timestamp
and no deletion timer — `ttl: 0` survives the `??` fallback (so the
configured `defaultTtl` is NOT applied) and then fails the truthiness
check (so no expiry is armed) — and `get`/`has` still find the value at
every later time while it is live. -/
theorem C4_ttl_zero_no_expiry (st st' : St) (T : Nat) (k v : JSVal)
    (hst : st' = (setOp st T k v (some ⟨some 0⟩)).2)
    (hok : (setOp st T k v (some ⟨some 0⟩)).1 = none)
    (hin : entryPresent st' k = true) :
    (∃ e, (getEntry st' k).1 = some e
        ∧ e.expiresAt = none ∧ e.timeoutId = none)
      ∧ (∀ now, v ∉ st'.deadRefs →
        (getOp st' now k).1 = some v ∧ hasOp st' now k = true) := by
  subst hst
  obtain ⟨e, he, hexp, htout, hpay⟩ := setOp_inserted st T k v _ hok hin
  have hexp' : e.expiresAt = none := by
    rw [hexp]; simp [effectiveTtl, ttlExpiresAt, optTruthy]
  have htout' : e.timeoutId = none := by
    rw [htout]; simp [effectiveTtl, ttlTimeout, optTruthy]
  have hwd : ∀ hv : v ∉ ((setOp st T k v (some ⟨some 0⟩)).2).deadRefs,
      entryWeakDead (setOp st T k v (some ⟨some 0⟩)).2 e = false := by
    intro hv
    cases e with
    | str se => rfl
    | sym se => rfl
    | obj oe =>
      dsimp only [entryWeakDead]
      dsimp only [Entry.payload] at hpay
      rw [hpay]
      simpa using hv
  refine ⟨⟨e, he, hexp', htout'⟩, ?_⟩
  intro now hv
  have hex : isExpired now e.expiresAt = false := by rw [hexp']; rfl
  refine ⟨?_, ?_⟩
  · have := getOp_live _ now _ _ he (by rw [hexp']; simp [optTruthy]) (hwd hv)
    rw [hpay] at this
    exact this
  · rw [hasOp_eq _ now _ _ he, hex, hwd hv]
    rfl

/-- C4 (witness): with `defaultTtl = 100` configured, `set('k','v',{ttl:0})`
at time 0 yields an entry that `get` still returns at time 1000000. -/
theorem C4_ttl_zero_no_expiry_witness :
    (∃ e, (getEntry c4Run (JSVal.str "k")).1 = some e
        ∧ e.expiresAt = none ∧ e.timeoutId = none)
      ∧ (getOp c4Run 1000000 (JSVal.str "k")).1 = some (JSVal.str "v") := by
  have h := C4_ttl_zero_no_expiry (initState (some 100) none) c4Run 0
    (JSVal.str "k") (JSVal.str "v") rfl (by decide) (by decide)
  exact ⟨h.1, (h.2 1000000 (by decide)).1⟩

end SmartCache

namespace SmartCache

/-- C5 (counterexample): on an entry expired at time 6 (set with ttl 5 at
time 0), `has` returns false but performs NO purge — `has` is a pure read
in the source (no branch mutates), so the entry is still present in the
string mapping after the call, where the claim requires it to have been
removed. -/
theorem C5_no_purge_counterexample :
    hasOp c5Run 6 (.str "k") = false
      ∧ entryPresent c5Run (.str "k") = true := by decide

/-- C5 (amended): for a key whose entry is expired or whose weak handle is
dead, `has` returns false — the same liveness/expiry verdict as `get` —
but unlike `get` it removes nothing (`hasOp` does not touch the state);
the purge happens only when `get` (or `size`/`keys`/`delete`/a timer)
runs, as witnessed here by `get` on the same state deleting the entry. -/
theorem C5_check_without_purge (st : St) (now : Nat) (k : JSVal) (e : Entry)
    (he : (getEntry st k).1 = some e)
    (hdead : (optTruthy e.expiresAt = true ∧ isExpired now e.expiresAt = true)
      ∨ (isExpired now e.expiresAt = false ∧ entryWeakDead st e = true)) :
    hasOp st now k = false
      ∧ (getOp st now k).1 = none
      ∧ entryPresent (getOp st now k).2 k = false := by
  rcases hdead with ⟨hx, hex⟩ | ⟨hex, hwd⟩
  · obtain ⟨hg1, hg2⟩ := getOp_expired st now k e he hx hex
    refine ⟨?_, hg1, hg2⟩
    rw [hasOp_eq st now k e he, hex]
    rfl
  · cases e with
    | str se => simp [entryWeakDead] at hwd
    | sym se => simp [entryWeakDead] at hwd
    | obj oe =>
      have hmem : oe.weakRef ∈ st.deadRefs := by
        simpa [entryWeakDead] using hwd
      obtain ⟨hg1, hg2⟩ := getOp_dead st now k oe he (by rw [hex]; simp) hmem
      refine ⟨?_, hg1, hg2⟩
      rw [hasOp_eq st now k (.obj oe) he, hex, hwd]
      rfl

/-- C5 (witness): the expired concrete entry of the counterexample run. -/
theorem C5_check_without_purge_witness :
    hasOp c5Run 6 (.str "k") = false
      ∧ (getOp c5Run 6 (.str "k")).1 = none
      ∧ entryPresent (getOp c5Run 6 (.str "k")).2 (.str "k") = false :=
  C5_check_without_purge c5Run 6 (.str "k")
    (.str ⟨.str "v", some ⟨0, 5⟩, some 5, 0⟩) (by decide)
    (.inl ⟨by decide, by decide⟩)

/-- C6 (counterexample): the current `#validateInputs` checks only for
null/undefined, so `set('k', 42)` — a value of a non-reclaimable kind —
throws nothing and stores the entry, where the claim requires a
synchronous validation error. -/
theorem C6_kind_not_rejected :
    (setOp (initState none none) 0 (.str "k") (.num 42) none).1 = none
      ∧ entryPresent (setOp (initState none none) 0 (.str "k") (.num 42) none).2
          (.str "k") = true := by decide

/-- C6 (amended): `set` and `getNotificationOnGC` throw a validation error
synchronously exactly for null/undefined key or value, and the check runs
before any mutation, so the cache state is completely unmodified — but a
defined value of a non-reclaimable kind is NOT rejected (the kind check
exists only in the legacy variant's validator). -/
theorem C6_null_validation (st : St) (now : Nat) (k v : JSVal) (o : Option SetOptions)
    (h : k = JSVal.nullv ∨ k = JSVal.undef ∨ v = JSVal.nullv ∨ v = JSVal.undef) :
    ((setOp st now k v o).1.isSome = true ∧ (setOp st now k v o).2 = st)
      ∧ ((getNotificationOnGCOp st k v).1.isSome = true
          ∧ (getNotificationOnGCOp st k v).2 = st) := by
  unfold setOp getNotificationOnGCOp
  rcases h with h | h | h | h
  · subst h; simp
  · subst h; simp
  · subst h
    by_cases hk : k = JSVal.nullv ∨ k = JSVal.undef <;> simp [hk]
  · subst h
    by_cases hk : k = JSVal.nullv ∨ k = JSVal.undef <;> simp [hk]

/-- C6 (witness): a null key is rejected with the state untouched. -/
theorem C6_null_validation_witness :
    ((setOp (initState none none) 0 JSVal.nullv (JSVal.str "v") none).1.isSome = true
        ∧ (setOp (initState none none) 0 JSVal.nullv (JSVal.str "v") none).2
            = initState none none)
      ∧ ((getNotificationOnGCOp (initState none none) JSVal.nullv (JSVal.str "v")).1.isSome = true
          ∧ (getNotificationOnGCOp (initState none none) JSVal.nullv (JSVal.str "v")).2
              = initState none none) :=
  C6_null_validation (initState none none) 0 JSVal.nullv (JSVal.str "v") none
    (Or.inl rfl)

/-- C7: `delete` is idempotent: it reports whether the key's mapping held
an entry (false on an absent key, with no error possible), and an
immediately repeated `delete` returns false and leaves the state exactly
as the first call left it. -/
theorem C7_delete_idempotent (st : St) (k : JSVal) (hwf : WF st) :
    (entryPresent st k = true → (deleteOp st k).1 = true)
      ∧ (entryPresent st k = false → (deleteOp st k).1 = false)
      ∧ deleteOp (deleteOp st k).2 k = (false, (deleteOp st k).2) := by
  obtain ⟨-, -, -, -, -, -, h7⟩ := hwf
  refine ⟨?_, ?_, ?_⟩
  · intro h; rw [deleteOp_fst, h]
  · intro h; rw [deleteOp_fst, h]
  · refine deleteOp_noop _ k ?_ (entryPresent_deleteOp_self st k)
    rw [deleteOp_lru]
    exact h7.not_mem_erase

/-- C7 (witness): deleting a present key twice returns true then false and
the second call is a no-op. -/
theorem C7_delete_idempotent_witness :
    (deleteOp c7Run (.str "k")).1 = true
      ∧ deleteOp (deleteOp c7Run (.str "k")).2 (.str "k")
          = (false, (deleteOp c7Run (.str "k")).2) :=
  ⟨(C7_delete_idempotent c7Run (.str "k") (by decide)).1 (by decide),
   (C7_delete_idempotent c7Run (.str "k") (by decide)).2.2⟩

/-- C9 (counterexample): a host with `FinalizationRegistry` but WITHOUT
`WeakRef` constructs a cache successfully — the constructor checks only
`FinalizationRegistry`, so the claimed construction-time failure for a
missing weak-observation primitive does not happen. -/
theorem C9_weakref_not_checked :
    construct ⟨false, true⟩ none none = .ok (initState none none) := rfl

/-- C9 (amended): the constructor (and the `#sharedRegistry` initializer)
throws synchronously iff the finalization-notification primitive
(`FinalizationRegistry`) is missing; the weak-observation primitive
(`WeakRef`) is not probed at construction time, so its absence surfaces
only at first use. -/
theorem C9_constructor_check (env : HostEnv) (d m : Option Nat) :
    (env.finalizationRegistryAvailable = false →
        construct env d m
          = .error "FinalizationRegistry is not supported in this environment")
      ∧ (env.finalizationRegistryAvailable = true →
        construct env d m = .ok (initState d m)) := by
  unfold construct
  constructor <;> intro h <;> simp [h]

/-- C9 (witness): a host without `FinalizationRegistry` fails at
construction; one with it (even without `WeakRef`) succeeds. -/
theorem C9_constructor_check_witness :
    construct ⟨true, false⟩ none none
        = .error "FinalizationRegistry is not supported in this environment"
      ∧ construct ⟨false, true⟩ none none = .ok (initState none none) :=
  ⟨(C9_constructor_check ⟨true, false⟩ none none).1 rfl,
   (C9_constructor_check ⟨false, true⟩ none none).2 rfl⟩

end SmartCache

namespace SmartCache

/-- C10: `updateTtl(k, 0)` on an existing key returns true, stamps
`expiresAt = Date.now() + 0` (the current instant) and — unlike `set`,
which arms nothing for a falsy ttl — unconditionally arms
`#createTtlTimeout(key, 0)`, a zero-delay timer whose callback deletes the
key; the entry is expired at every strictly later time, whereas the
`set(k, v, { ttl: 0 })` path computes no expiry and no timer at all. -/
theorem C10_updateTtl_zero (st : St) (now : Nat) (k : JSVal) (hwf : WF st)
    (hp : entryPresent st k = true) :
    (updateTtlOp st now k 0).1 = true
      ∧ (∃ e, (getEntry (updateTtlOp st now k 0).2 k).1 = some e
          ∧ e.expiresAt = some now ∧ e.timeoutId = some ⟨now, 0⟩)
      ∧ (∀ t2, now < t2 → isExpired t2 (some now) = true)
      ∧ entryPresent (fireTtlTimer (updateTtlOp st now k 0).2 k) k = false
      ∧ ttlExpiresAt now (some 0) = none
      ∧ ttlTimeout now (some 0) = none := by
  obtain ⟨h1, h2, h3, -, -, -, -⟩ := hwf
  have hmain : (updateTtlOp st now k 0).1 = true
      ∧ (∃ e, (getEntry (updateTtlOp st now k 0).2 k).1 = some e
          ∧ e.expiresAt = some now ∧ e.timeoutId = some ⟨now, 0⟩) := by
    cases htk : typeofKey k
    case string =>
      have hobj : alookup st.cache k = none :=
        alookup_none_of_kind _ _ _ h3 (by rw [htk]; simp)
      have hsym : alookup st.symbolCache k = none :=
        alookup_none_of_kind _ _ _ h2 (by rw [htk]; simp)
      rw [entryPresent_string st k htk] at hp
      obtain ⟨e, hstr⟩ := Option.isSome_iff_exists.mp hp
      unfold updateTtlOp
      rw [hobj, hsym, hstr]
      dsimp only
      refine ⟨rfl, ⟨Entry.str { e with timeoutId := some ⟨now, 0⟩, expiresAt := some (now + 0) }, ?_, by simp [Entry.expiresAt], by simp [Entry.timeoutId]⟩⟩
      unfold getEntry
      rw [htk]
      simp [alookup_aset_self]
    case symbol =>
      have hobj : alookup st.cache k = none :=
        alookup_none_of_kind _ _ _ h3 (by rw [htk]; simp)
      rw [entryPresent_symbol st k htk] at hp
      obtain ⟨e, hsym⟩ := Option.isSome_iff_exists.mp hp
      unfold updateTtlOp
      rw [hobj, hsym]
      dsimp only
      refine ⟨rfl, ⟨Entry.sym { e with timeoutId := some ⟨now, 0⟩, expiresAt := some (now + 0) }, ?_, by simp [Entry.expiresAt], by simp [Entry.timeoutId]⟩⟩
      unfold getEntry
      rw [htk]
      simp [alookup_aset_self]
    case object =>
      rw [entryPresent_object st k htk] at hp
      obtain ⟨e, hobj⟩ := Option.isSome_iff_exists.mp hp
      unfold updateTtlOp
      rw [hobj]
      dsimp only
      refine ⟨rfl, ⟨Entry.obj { e with timeoutId := some ⟨now, 0⟩, expiresAt := some (now + 0) }, ?_, by simp [Entry.expiresAt], by simp [Entry.timeoutId]⟩⟩
      unfold getEntry
      rw [htk]
      simp [alookup_aset_self]
  refine ⟨hmain.1, hmain.2, ?_, ?_, ?_, ?_⟩
  · intro t2 h
    simp only [isExpired, decide_eq_true_eq]
    exact h
  · exact entryPresent_deleteOp_self _ k
  · simp [ttlExpiresAt, optTruthy]
  · simp [ttlTimeout, optTruthy]

/-- C10 (witness): `updateTtl('k', 0)` at time 10 on a key set at time 5. -/
theorem C10_updateTtl_zero_witness :
    (updateTtlOp c10Run 10 (.str "k") 0).1 = true
      ∧ (∃ e, (getEntry (updateTtlOp c10Run 10 (.str "k") 0).2 (.str "k")).1 = some e
          ∧ e.expiresAt = some 10 ∧ e.timeoutId = some ⟨10, 0⟩)
      ∧ (∀ t2, 10 < t2 → isExpired t2 (some 10) = true)
      ∧ entryPresent (fireTtlTimer (updateTtlOp c10Run 10 (.str "k") 0).2 (.str "k"))
          (.str "k") = false
      ∧ ttlExpiresAt 10 (some 0) = none
      ∧ ttlTimeout 10 (some 0) = none :=
  C10_updateTtl_zero c10Run 10 (.str "k") (by decide) (by decide)

end SmartCache

namespace SmartCache

/-! ## The `size`/`keys` sweep -/

theorem aerase_eq_filter {β : Type} (l : List (JSVal × β)) (k : JSVal) :
    aerase l k = l.filter (fun p => !decide (p.1 = k)) := by
  induction l with
  | nil => rfl
  | cons p t ih =>
    by_cases hp : p.1 = k <;> simp [aerase, hp, ih, List.filter_cons]

theorem purge_deadRefs (ks : List JSVal) (st : St) :
    (purge st ks).deadRefs = st.deadRefs := by
  induction ks generalizing st with
  | nil => rfl
  | cons a t ih =>
    show (purge (deleteOp st a).2 t).deadRefs = st.deadRefs
    rw [ih, deleteOp_deadRefs]

theorem purge_stringCache (ks : List JSVal) (st : St) :
    (purge st ks).stringCache
      = ks.foldl
          (fun c k => if typeofKey k = KeyType.string then aerase c k else c)
          st.stringCache := by
  induction ks generalizing st with
  | nil => rfl
  | cons a t ih =>
    show (purge (deleteOp st a).2 t).stringCache = _
    rw [ih, List.foldl_cons, deleteOp_stringCache]

theorem purge_symbolCache (ks : List JSVal) (st : St) :
    (purge st ks).symbolCache
      = ks.foldl
          (fun c k => if typeofKey k = KeyType.symbol then aerase c k else c)
          st.symbolCache := by
  induction ks generalizing st with
  | nil => rfl
  | cons a t ih =>
    show (purge (deleteOp st a).2 t).symbolCache = _
    rw [ih, List.foldl_cons, deleteOp_symbolCache]

theorem purge_cache (ks : List JSVal) (st : St) :
    (purge st ks).cache
      = ks.foldl
          (fun c k => if typeofKey k = KeyType.object then aerase c k else c)
          st.cache := by
  induction ks generalizing st with
  | nil => rfl
  | cons a t ih =>
    show (purge (deleteOp st a).2 t).cache = _
    rw [ih, List.foldl_cons, deleteOp_cache]

theorem foldl_kind_aerase_skip {β : Type} (t : KeyType) (ks : List JSVal)
    (c : List (JSVal × β)) (h : ∀ x ∈ ks, typeofKey x ≠ t) :
    ks.foldl (fun c k => if typeofKey k = t then aerase c k else c) c = c := by
  induction ks generalizing c with
  | nil => rfl
  | cons a l ih =>
    rw [List.foldl_cons, if_neg (h a (List.mem_cons_self a l))]
    exact ih c fun x hx => h x (List.mem_cons_of_mem a hx)

theorem foldl_kind_aerase_all {β : Type} (t : KeyType) (ks : List JSVal)
    (c : List (JSVal × β)) (h : ∀ x ∈ ks, typeofKey x = t) :
    ks.foldl (fun c k => if typeofKey k = t then aerase c k else c) c
      = ks.foldl (fun c k => aerase c k) c := by
  induction ks generalizing c with
  | nil => rfl
  | cons a l ih =>
    rw [List.foldl_cons, List.foldl_cons, if_pos (h a (List.mem_cons_self a l))]
    exact ih _ fun x hx => h x (List.mem_cons_of_mem a hx)

theorem foldl_aerase_eq_filter {β : Type} (ks : List JSVal) (c : List (JSVal × β)) :
    ks.foldl (fun c k => aerase c k) c = c.filter (fun p => !decide (p.1 ∈ ks)) := by
  induction ks generalizing c with
  | nil => simp
  | cons a l ih =>
    rw [List.foldl_cons, ih, aerase_eq_filter, List.filter_filter]
    refine List.filter_congr fun p _ => ?_
    by_cases h1 : p.1 = a <;> by_cases h2 : p.1 ∈ l <;>
      simp [h1, h2, List.mem_cons]

theorem mem_keysOf_filter {β : Type} {l : List (JSVal × β)} {f : JSVal × β → Bool}
    {x : JSVal} (h : x ∈ keysOf (l.filter f)) : x ∈ keysOf l := by
  simp only [keysOf, List.mem_map] at h ⊢
  obtain ⟨p, hp, rfl⟩ := h
  exact ⟨p, List.mem_of_mem_filter hp, rfl⟩

theorem nodup_keys_pair_eq {β : Type} {l : List (JSVal × β)}
    (hnd : (keysOf l).Nodup) {p q : JSVal × β} (hp : p ∈ l) (hq : q ∈ l)
    (h : p.1 = q.1) : p = q := by
  induction l with
  | nil => simp at hp
  | cons r t ih =>
    simp only [keysOf, List.map_cons, List.nodup_cons] at hnd
    rcases List.mem_cons.mp hp with hp | hp <;>
      rcases List.mem_cons.mp hq with hq | hq
    · rw [hp, hq]
    · exfalso
      apply hnd.1
      rw [hp] at h
      rw [h]
      exact List.mem_map.mpr ⟨q, hq, rfl⟩
    · exfalso
      apply hnd.1
      rw [hq] at h
      rw [← h]
      exact List.mem_map.mpr ⟨p, hp, rfl⟩
    · exact ih hnd.2 hp hq

theorem mem_keysOf_filter_iff {β : Type} {l : List (JSVal × β)}
    (f : JSVal × β → Bool) (hnd : (keysOf l).Nodup) {p : JSVal × β} (hp : p ∈ l) :
    p.1 ∈ keysOf (l.filter f) ↔ f p = true := by
  constructor
  · intro h
    simp only [keysOf, List.mem_map] at h
    obtain ⟨q, hq, hqe⟩ := h
    obtain ⟨hql, hqf⟩ := List.mem_filter.mp hq
    rw [nodup_keys_pair_eq hnd hp hql hqe.symm]
    exact hqf
  · intro h
    exact List.mem_map.mpr ⟨p, List.mem_filter.mpr ⟨hp, h⟩, rfl⟩

end SmartCache

namespace SmartCache

theorem keysOf_kind {β : Type} {l : List (JSVal × β)} {t : KeyType}
    (h : ∀ p ∈ l, typeofKey p.1 = t) {x : JSVal} (hx : x ∈ keysOf l) :
    typeofKey x = t := by
  simp only [keysOf, List.mem_map] at hx
  obtain ⟨p, hp, rfl⟩ := hx
  exact h p hp

theorem keysOf_length {β : Type} (l : List (JSVal × β)) :
    (keysOf l).length = l.length := List.length_map _ _

/-- The sweep of `size`/`keys` leaves the string mapping holding exactly
its unexpired entries. -/
theorem sweep_stringCache (st : St) (now : Nat) (hwf : WF st) :
    (purge st (deadKeysOf st now)).stringCache
      = st.stringCache.filter (fun p => !isExpired now p.2.expiresAt) := by
  obtain ⟨h1, h2, h3, h4, -, -, -⟩ := hwf
  rw [purge_stringCache]
  unfold deadKeysOf
  rw [List.foldl_append, List.foldl_append]
  rw [foldl_kind_aerase_skip KeyType.string
    (keysOf (st.cache.filter (fun p => !objAlive st now p.2))) st.stringCache
    (fun x hx => by rw [keysOf_kind h3 (mem_keysOf_filter hx)]; simp)]
  rw [foldl_kind_aerase_skip KeyType.string
    (keysOf (st.symbolCache.filter (fun p => isExpired now p.2.expiresAt))) st.stringCache
    (fun x hx => by rw [keysOf_kind h2 (mem_keysOf_filter hx)]; simp)]
  rw [foldl_kind_aerase_all KeyType.string
    (keysOf (st.stringCache.filter (fun p => isExpired now p.2.expiresAt))) st.stringCache
    (fun x hx => keysOf_kind h1 (mem_keysOf_filter hx))]
  rw [foldl_aerase_eq_filter]
  refine List.filter_congr fun p hp => ?_
  have hb := mem_keysOf_filter_iff (fun q => isExpired now q.2.expiresAt) h4 hp
  by_cases hie : isExpired now p.2.expiresAt <;> simp [hb, hie]

/-- The sweep leaves the symbol mapping holding exactly its unexpired
entries. -/
theorem sweep_symbolCache (st : St) (now : Nat) (hwf : WF st) :
    (purge st (deadKeysOf st now)).symbolCache
      = st.symbolCache.filter (fun p => !isExpired now p.2.expiresAt) := by
  obtain ⟨h1, h2, h3, -, h5, -, -⟩ := hwf
  rw [purge_symbolCache]
  unfold deadKeysOf
  rw [List.foldl_append, List.foldl_append]
  rw [foldl_kind_aerase_skip KeyType.symbol
    (keysOf (st.cache.filter (fun p => !objAlive st now p.2))) st.symbolCache
    (fun x hx => by rw [keysOf_kind h3 (mem_keysOf_filter hx)]; simp)]
  rw [foldl_kind_aerase_all KeyType.symbol
    (keysOf (st.symbolCache.filter (fun p => isExpired now p.2.expiresAt))) st.symbolCache
    (fun x hx => keysOf_kind h2 (mem_keysOf_filter hx))]
  rw [foldl_aerase_eq_filter]
  rw [foldl_kind_aerase_skip KeyType.symbol
    (keysOf (st.stringCache.filter (fun p => isExpired now p.2.expiresAt)))
    (st.symbolCache.filter (fun p => !decide (p.1 ∈ keysOf
      (st.symbolCache.filter (fun q => isExpired now q.2.expiresAt)))))
    (fun x hx => by rw [keysOf_kind h1 (mem_keysOf_filter hx)]; simp)]
  refine List.filter_congr fun p hp => ?_
  have hb := mem_keysOf_filter_iff (fun q => isExpired now q.2.expiresAt) h5 hp
  by_cases hie : isExpired now p.2.expiresAt <;> simp [hb, hie]

/-- The sweep leaves the object mapping holding exactly its surviving
(unexpired, still-dereferencing) entries. -/
theorem sweep_cache (st : St) (now : Nat) (hwf : WF st) :
    (purge st (deadKeysOf st now)).cache
      = st.cache.filter (fun p => objAlive st now p.2) := by
  obtain ⟨h1, h2, h3, -, -, h6, -⟩ := hwf
  rw [purge_cache]
  unfold deadKeysOf
  rw [List.foldl_append, List.foldl_append]
  rw [foldl_kind_aerase_all KeyType.object
    (keysOf (st.cache.filter (fun p => !objAlive st now p.2))) st.cache
    (fun x hx => keysOf_kind h3 (mem_keysOf_filter hx))]
  rw [foldl_aerase_eq_filter]
  rw [foldl_kind_aerase_skip KeyType.object
    (keysOf (st.symbolCache.filter (fun p => isExpired now p.2.expiresAt)))
    (st.cache.filter (fun p => !decide (p.1 ∈ keysOf
      (st.cache.filter (fun q => !objAlive st now q.2)))))
    (fun x hx => by rw [keysOf_kind h2 (mem_keysOf_filter hx)]; simp)]
  rw [foldl_kind_aerase_skip KeyType.object
    (keysOf (st.stringCache.filter (fun p => isExpired now p.2.expiresAt)))
    (st.cache.filter (fun p => !decide (p.1 ∈ keysOf
      (st.cache.filter (fun q => !objAlive st now q.2)))))
    (fun x hx => by rw [keysOf_kind h1 (mem_keysOf_filter hx)]; simp)]
  refine List.filter_congr fun p hp => ?_
  have hb := mem_keysOf_filter_iff (fun q => !objAlive st now q.2) h6 hp
  by_cases hoa : objAlive st now p.2 <;> simp [hb, hoa]

theorem objAlive_eq_of_deadRefs {s t : St} (h : s.deadRefs = t.deadRefs)
    (now : Nat) : objAlive s now = objAlive t now := by
  funext e
  unfold objAlive derefOf
  rw [h]

/-- C8: `size` and then `keys()` with no intervening mutation agree: in
every reachable state, `keys()` evaluated on the state `size` leaves
behind (and at the same instant) returns exactly `size`-many keys.  Both
count an entry as surviving iff it is unexpired and (for object-category
entries) its `WeakRef` still dereferences; `size`'s sweep removes
precisely the others, so the subsequent `keys()` enumerates exactly the
counted entries. -/
theorem C8_size_keys_consistent (st : St) (now : Nat) (h : Reachable st) :
    ((keysOp (sizeOp st now).2 now).1).length = (sizeOp st now).1 := by
  have hwf := reachable_wf h
  have hdr : (purge st (deadKeysOf st now)).deadRefs = st.deadRefs :=
    purge_deadRefs _ _
  have hoa := objAlive_eq_of_deadRefs hdr now
  show (keysOf ((purge st (deadKeysOf st now)).cache.filter
          (fun p => objAlive (purge st (deadKeysOf st now)) now p.2))
        ++ keysOf ((purge st (deadKeysOf st now)).symbolCache.filter
          (fun p => !isExpired now p.2.expiresAt))
        ++ keysOf ((purge st (deadKeysOf st now)).stringCache.filter
          (fun p => !isExpired now p.2.expiresAt))).length
      = (st.cache.filter (fun p => objAlive st now p.2)).length
        + (st.symbolCache.filter (fun p => !isExpired now p.2.expiresAt)).length
        + (st.stringCache.filter (fun p => !isExpired now p.2.expiresAt)).length
  rw [sweep_cache st now hwf, sweep_symbolCache st now hwf,
    sweep_stringCache st now hwf]
  have hc : ((st.cache.filter (fun p => objAlive st now p.2)).filter
      (fun p => objAlive (purge st (deadKeysOf st now)) now p.2))
        = st.cache.filter (fun p => objAlive st now p.2) := by
    refine List.filter_eq_self.mpr fun p hp => ?_
    rw [hoa]
    exact (List.mem_filter.mp hp).2
  have hy : ((st.symbolCache.filter (fun p => !isExpired now p.2.expiresAt)).filter
      (fun p => !isExpired now p.2.expiresAt))
        = st.symbolCache.filter (fun p => !isExpired now p.2.expiresAt) :=
    List.filter_eq_self.mpr fun p hp => (List.mem_filter.mp hp).2
  have hs : ((st.stringCache.filter (fun p => !isExpired now p.2.expiresAt)).filter
      (fun p => !isExpired now p.2.expiresAt))
        = st.stringCache.filter (fun p => !isExpired now p.2.expiresAt) :=
    List.filter_eq_self.mpr fun p hp => (List.mem_filter.mp hp).2
  rw [hc, hy, hs, List.length_append, List.length_append,
    keysOf_length, keysOf_length, keysOf_length]

/-- C8 (witness): the property at a concrete reachable state (two live
entries, one already expired at the sweep instant). -/
theorem C8_size_keys_consistent_witness :
    ((keysOp (sizeOp c8Run 10 ).2 10).1).length = (sizeOp c8Run 10).1 :=
  C8_size_keys_consistent c8Run 10
    (Reachable.set _ 0 (.str "b") (.str "w") (some ⟨some 5⟩)
      (Reachable.set _ 0 (.str "a") (.str "v") none (.init none none)))

end SmartCache
